import Mathlib

/-!
Verification of `scripts/normalize_notebooks.py`.

The script is embedded shallowly: Python strings become `List Char`
(so that `strip`, `lower`, `splitlines` and friends are ordinary
recursive functions), the notebook becomes a list of cells, and the
random `uuid.uuid4()` generator becomes an explicit parameter
`gen : Nat → List Char` giving the id assigned to the cell at each
position.  Line boundaries are modelled as the character `'\n'`
(the only terminator occurring in the documents the script handles).
`nbformat.read`/`nbformat.write` are modelled by an explicit
read-result sum and an effect record.
-/

namespace NormalizeNotebooks

/-- Python strings are modelled as lists of characters. -/
abbrev Str := List Char

/-- The newline character. -/
def nlChar : Char := Char.ofNat 10

/-- The double-quote character. -/
def dqChar : Char := Char.ofNat 34

/-- The single-quote character. -/
def sqChar : Char := Char.ofNat 39

/-- The backslash character. -/
def bsChar : Char := Char.ofNat 92

/-- Python `str.strip()` whitespace: space, tab, newline, carriage
return, vertical tab, form feed. -/
def isPySpace (c : Char) : Bool :=
  c = ' ' || c = Char.ofNat 9 || c = nlChar || c = Char.ofNat 13 ||
  c = Char.ofNat 11 || c = Char.ofNat 12

/-- Python `str.lstrip()`. -/
def pyLStrip (l : Str) : Str := l.dropWhile isPySpace

/-- Python `str.rstrip()`. -/
def pyRStrip (l : Str) : Str := (l.reverse.dropWhile isPySpace).reverse

/-- Python `str.strip()`. -/
def pyStrip (l : Str) : Str := pyRStrip (pyLStrip l)

/-- Python `str.lower()` (ASCII letters; the script only compares
against ASCII literals). -/
def pyLower (l : Str) : Str := l.map Char.toLower

/-- `s.startswith(c)` for a single character `c`. -/
def startsWithChar (c : Char) (l : Str) : Bool := l.head? = some c

/-- `s.endswith(c)` for a single character `c`. -/
def endsWithChar (c : Char) (l : Str) : Bool := l.getLast? = some c

/-- `val.replace('"', '\\"')` from `quote_value`. -/
def escapeDq (l : Str) : Str :=
  l.flatMap fun c => if c = dqChar then [bsChar, dqChar] else [c]

/-- The branch cascade of `quote_value`, applied to the already
stripped value: keep already-quoted values, lowercase bare
booleans/null, double-quote YAML-sensitive values (escaping inner
double quotes), otherwise return the value as is. -/
def quoteCore (val : Str) : Str :=
  if (startsWithChar dqChar val && endsWithChar dqChar val) ||
     (startsWithChar sqChar val && endsWithChar sqChar val) then
    val
  else if pyLower val = "true".toList ∨ pyLower val = "false".toList ∨
          pyLower val = "null".toList then
    pyLower val
  else if ':' ∈ val ∨ startsWithChar ' ' val = true ∨ endsWithChar ' ' val = true ∨
          nlChar ∈ val ∨ startsWithChar '#' val = true then
    dqChar :: (escapeDq val ++ [dqChar])
  else
    val

/-- `quote_value` from the script: `val = val.strip()` followed by the
branch cascade. -/
def quote_value (v0 : Str) : Str := quoteCore (pyStrip v0)

/-- A character allowed in a front-matter key: the class
`[A-Za-z0-9_\-]` of `FRONT_MATTER_KEY_RE`. -/
def isKeyChar (c : Char) : Bool :=
  c.isAlpha || c.isDigit || c = '_' || c = '-'

/-- `FRONT_MATTER_KEY_RE.match(line)`: the regex
`^(?P<key>[A-Za-z0-9_\-]+):\s*(?P<val>.*)$` on a newline-free line.
The key is the maximal leading run of key characters (which must be
non-empty and be followed by a colon); `\s*` greedily eats the
whitespace after the colon, the value is the rest of the line. -/
def matchKeyVal (l : Str) : Option (Str × Str) :=
  let key := l.takeWhile isKeyChar
  if key ≠ [] ∧ (l.drop key.length).head? = some ':' then
    some (key, (l.drop (key.length + 1)).dropWhile isPySpace)
  else
    none

/-- One iteration of the loop body of `normalize_front_matter_lines`. -/
def normalizeLine (l : Str) : Str :=
  match matchKeyVal l with
  | none => l
  | some (key, val) =>
    if pyLower key = "comments".toList then
      if pyLower (pyStrip val) = "true".toList ∨
         pyLower (pyStrip val) = "false".toList then
        key ++ ": ".toList ++ pyLower (pyStrip val)
      else
        key ++ ": true".toList
    else if pyLower key = "title".toList ∨ pyLower key = "description".toList ∨
            ':' ∈ val then
      key ++ ": ".toList ++ quote_value val
    else
      l

/-- `normalize_front_matter_lines` from the script. -/
def normalize_front_matter_lines (lines : List Str) : List Str :=
  lines.map normalizeLine

/-- Raw split of a string on the newline character (always returns at
least one, possibly empty, piece — like Python `s.split('\n')`). -/
def splitOnNL : Str → List Str
  | [] => [[]]
  | c :: rest =>
    if c = nlChar then [] :: splitOnNL rest
    else
      match splitOnNL rest with
      | [] => [[c]]
      | p :: ps => (c :: p) :: ps

/-- Python `str.splitlines()` restricted to `'\n'` boundaries: the
empty string yields no lines, and a single trailing newline produces
no trailing empty line. -/
def splitlines (l : Str) : List Str :=
  if l = [] then []
  else splitOnNL (if l.getLast? = some nlChar then l.dropLast else l)

/-- Python `'\n'.join(lines)`. -/
def joinNL : List Str → Str
  | [] => []
  | [l] => l
  | l :: l' :: ls => l ++ nlChar :: joinNL (l' :: ls)

/-- A cell's `source` field: either a plain string or a list of line
strings (the two JSON shapes nbformat tolerates). -/
inductive Source where
  | str (s : Str)
  | list (ls : List Str)
deriving DecidableEq

/-- `''.join(src)` when the source is a list, the string itself
otherwise (lines 93–96 of the script). -/
def srcText : Source → Str
  | .str s => s
  | .list ls => ls.flatten

/-- A notebook cell: type tag, source, optional id. -/
structure Cell where
  cell_type : Str
  source : Source
  id : Option Str
deriving DecidableEq

/-- `lines.index('---', 1)` on the tail: index (within the tail) of
the first element equal to `"---"`, `none` when absent (the caught
`ValueError`). -/
def findDashIdx : List Str → Option Nat
  | [] => none
  | l :: ls =>
    if l = "---".toList then some 0
    else (findDashIdx ls).map (· + 1)

/-- The front-matter detection test of line 98:
`src_text.lstrip().startswith('---') or 'title:' in
src_text.splitlines()[0:3]` — note the second disjunct is Python list
membership: it asks whether one of the first three lines *equals*
`"title:"`. -/
def detectFM (t : Str) : Bool :=
  "---".toList.isPrefixOf (pyLStrip t) ||
  ((splitlines t).take 3).contains "title:".toList

/-- Lines 106–121 of the script, for a first line that strips to
`---`: if a closing `---` exists at (tail) index `k`, normalize the
block strictly between the delimiters and reassemble, restoring a
trailing newline exactly when the original source ended with one
(line 115); otherwise normalize every line and join (lines 118–120,
the caught `ValueError`). -/
def fmDashRewrite (t : Str) (l0 : Str) (rest : List Str) :
    Option Nat → Str
  | some k =>
    joinNL (("---".toList :: normalize_front_matter_lines (rest.take k)) ++
            ("---".toList :: rest.drop (k + 1))) ++
    (if t.getLast? = some nlChar then [nlChar] else [])
  | none => joinNL (normalize_front_matter_lines (l0 :: rest))

/-- Lines 104–128 of the script on a non-empty line list: dispatch on
whether the first line strips to `---`; if not, normalize the first
six lines and rejoin them with the rest (lines 123–127). -/
def fmRewrite (t : Str) (l0 : Str) (rest : List Str) : Str :=
  if pyStrip l0 = "---".toList then
    fmDashRewrite t l0 rest (findDashIdx rest)
  else
    joinNL (normalize_front_matter_lines ((l0 :: rest).take 6) ++
      (l0 :: rest).drop 6)

/-- The full source rewrite of lines 104–128 (`lines` empty falls into
the `else` branch of line 106, producing `'\n'.join([])`, the empty
string). -/
def fixFirstSource (t : Str) : Str :=
  match splitlines t with
  | [] => joinNL (normalize_front_matter_lines (List.take 6 ([] : List Str)) ++
      List.drop 6 ([] : List Str))
  | l0 :: rest => fmRewrite t l0 rest

/-- First-cell front-matter step of `fix_notebook` (lines 89–128):
when front matter is detected the first cell is retagged to markdown
and its source replaced (every detected path sets `changed`). -/
def fmStep (cells : List Cell) : List Cell × Bool :=
  match cells with
  | [] => ([], false)
  | first :: rest =>
    let t := srcText first.source
    if detectFM t then
      (⟨"markdown".toList, .str (fixFirstSource t), first.id⟩ :: rest, true)
    else
      (first :: rest, false)

/-- The id pass of `fix_notebook` (lines 84–87): the cell at absolute
position `i` whose `id` is missing or empty receives the fresh token
`gen i`; the boolean records whether any id was assigned. -/
def ensureIdsFrom (gen : Nat → Str) : Nat → List Cell → List Cell × Bool
  | _, [] => ([], false)
  | i, c :: cs =>
    let r := ensureIdsFrom gen (i + 1) cs
    if c.id = none ∨ c.id = some [] then
      (⟨c.cell_type, c.source, some (gen i)⟩ :: r.1, true)
    else
      (c :: r.1, r.2)

/-- The in-memory content transform of `fix_notebook`: id pass, then
the first-cell front-matter step; the flag is the script's `changed`
variable. -/
def fixNotebookContent (gen : Nat → Str) (cells : List Cell) :
    List Cell × Bool :=
  let r1 := ensureIdsFrom gen 0 cells
  let r2 := fmStep r1.1
  (r2.1, r1.2 || r2.2)

/-- Outcome of `nbformat.read` at line 76: either the structural
failure caught at line 77, or a parsed cell list. -/
inductive ReadResult where
  | failed
  | ok (cells : List Cell)
deriving DecidableEq

/-- Observable effects of one `fix_notebook` call: the content written
back (if any) and the number of lines printed. -/
structure RunEffect where
  written : Option (List Cell)
  logLines : Nat
deriving DecidableEq

/-- `fix_notebook` at the I/O level: an unreadable document returns
immediately (no write, no log); otherwise the content transform runs
and the document is written back — with one log line — exactly when
the `changed` flag is set (`writeOk` says whether `nbformat.write`
succeeds; a failed write still logs one line). -/
def fixNotebookEffects (gen : Nat → Str) (writeOk : Bool) (r : ReadResult) :
    RunEffect :=
  match r with
  | .failed => ⟨none, 0⟩
  | .ok cells =>
    let r := fixNotebookContent gen cells
    if r.2 then
      if writeOk then ⟨some r.1, 1⟩ else ⟨none, 1⟩
    else ⟨none, 0⟩

/-! ### Lines: `splitOnNL`, `splitlines`, `joinNL` -/

theorem splitOnNL_ne_nil (t : Str) : splitOnNL t ≠ [] := by
  match t with
  | [] => simp [splitOnNL]
  | c :: rest =>
    rw [splitOnNL]
    by_cases h : c = nlChar
    · simp [h]
    · simp only [if_neg h]
      cases splitOnNL rest <;> simp

theorem nl_not_mem_of_mem_splitOnNL : ∀ {t l : Str},
    l ∈ splitOnNL t → nlChar ∉ l := by
  intro t
  induction t with
  | nil =>
    intro l hl
    simp [splitOnNL] at hl; simp [hl]
  | cons c rest ih =>
    intro l hl
    rw [splitOnNL] at hl
    by_cases h : c = nlChar
    · rw [if_pos h] at hl
      rcases List.mem_cons.mp hl with h1 | h1
      · simp [h1]
      · exact ih h1
    · rw [if_neg h] at hl
      rcases hp : splitOnNL rest with _ | ⟨p, ps⟩
      · exact absurd hp (splitOnNL_ne_nil rest)
      · rw [hp] at hl
        rcases List.mem_cons.mp hl with h1 | h1
        · intro hmem
          rw [h1] at hmem
          rcases List.mem_cons.mp hmem with h2 | h2
          · exact h h2.symm
          · exact ih (hp ▸ List.mem_cons_self p ps) h2
        · exact ih (hp ▸ List.mem_cons_of_mem p h1)

theorem nl_not_mem_of_mem_splitlines {t : Str} {l : Str}
    (hl : l ∈ splitlines t) : nlChar ∉ l := by
  unfold splitlines at hl
  by_cases h : t = []
  · simp [h] at hl
  · rw [if_neg h] at hl
    exact nl_not_mem_of_mem_splitOnNL hl

theorem splitOnNL_singleton {l : Str} (hl : nlChar ∉ l) :
    splitOnNL l = [l] := by
  induction l with
  | nil => rfl
  | cons c cs ih =>
    have hc : ¬ c = nlChar := fun h => hl (h ▸ List.mem_cons_self c cs)
    rw [splitOnNL, if_neg hc, ih (fun h => hl (List.mem_cons_of_mem c h))]

theorem splitOnNL_append_nl {l : Str} (hl : nlChar ∉ l) (t : Str) :
    splitOnNL (l ++ nlChar :: t) = l :: splitOnNL t := by
  induction l with
  | nil => rw [List.nil_append, splitOnNL, if_pos rfl]
  | cons c cs ih =>
    have hc : ¬ c = nlChar := fun h => hl (h ▸ List.mem_cons_self c cs)
    rw [List.cons_append, splitOnNL, if_neg hc,
      ih (fun h => hl (List.mem_cons_of_mem c h))]

theorem splitOnNL_joinNL {L : List Str} (hne : L ≠ [])
    (hfree : ∀ l ∈ L, nlChar ∉ l) : splitOnNL (joinNL L) = L := by
  induction L with
  | nil => exact absurd rfl hne
  | cons l ls ih =>
    rcases ls with _ | ⟨l', ls'⟩
    · rw [joinNL, splitOnNL_singleton (hfree l (by simp))]
    · rw [joinNL, splitOnNL_append_nl (hfree l (by simp)),
        ih (by simp) (fun x hx => hfree x (List.mem_cons_of_mem l hx))]

theorem joinNL_getLast? {L : List Str} {lst : Str}
    (hlast : L.getLast? = some lst) (hne : lst ≠ []) :
    (joinNL L).getLast? = lst.getLast? := by
  induction L with
  | nil => simp at hlast
  | cons l ls ih =>
    rcases ls with _ | ⟨l', ls'⟩
    · simp only [List.getLast?_singleton, Option.some.injEq] at hlast
      rw [joinNL, hlast]
    · rw [List.getLast?_cons_cons] at hlast
      have hjoin_ne : nlChar :: joinNL (l' :: ls') ≠ [] := by simp
      rw [joinNL, List.getLast?_append_of_ne_nil l hjoin_ne]
      have hjrec : (joinNL (l' :: ls')).getLast? = lst.getLast? := ih hlast
      have hjne : joinNL (l' :: ls') ≠ [] := by
        intro h
        rw [h] at hjrec
        exact hne (List.getLast?_eq_none_iff.mp hjrec.symm)
      calc (nlChar :: joinNL (l' :: ls')).getLast?
          = ([nlChar] ++ joinNL (l' :: ls')).getLast? := rfl
        _ = (joinNL (l' :: ls')).getLast? :=
            List.getLast?_append_of_ne_nil [nlChar] hjne
        _ = lst.getLast? := hjrec

theorem joinNL_getLast?_ne_nl {L : List Str} {lst : Str}
    (hlast : L.getLast? = some lst) (hne : lst ≠ [])
    (hfree : nlChar ∉ lst) : (joinNL L).getLast? ≠ some nlChar := by
  rw [joinNL_getLast? hlast hne]
  intro h
  exact hfree (List.mem_of_mem_getLast? h)

theorem splitlines_joinNL {L : List Str} {lst : Str} (hne : L ≠ [])
    (hfree : ∀ l ∈ L, nlChar ∉ l) (hlast : L.getLast? = some lst)
    (hlne : lst ≠ []) : splitlines (joinNL L) = L := by
  have h1 : (joinNL L).getLast? = lst.getLast? := joinNL_getLast? hlast hlne
  have h2 : joinNL L ≠ [] := by
    intro h
    rw [h] at h1
    simp at h1
    exact hlne (List.getLast?_eq_none_iff.mp h1.symm)
  have h3 : (joinNL L).getLast? ≠ some nlChar :=
    joinNL_getLast?_ne_nl hlast hlne
      (hfree lst (List.mem_of_mem_getLast? hlast))
  unfold splitlines
  rw [if_neg h2, if_neg h3]
  exact splitOnNL_joinNL hne hfree

theorem splitlines_joinNL_nl {L : List Str} (hne : L ≠ [])
    (hfree : ∀ l ∈ L, nlChar ∉ l) :
    splitlines (joinNL L ++ [nlChar]) = L := by
  have h2 : joinNL L ++ [nlChar] ≠ [] := by simp
  unfold splitlines
  rw [if_neg h2, if_pos (List.getLast?_concat (joinNL L)),
    List.dropLast_concat]
  exact splitOnNL_joinNL hne hfree

theorem splitOnNL_getLast?_ne_nil : ∀ {t : Str}, t ≠ [] →
    t.getLast? ≠ some nlChar →
    ∀ lst, (splitOnNL t).getLast? = some lst → lst ≠ [] := by
  intro t
  induction t with
  | nil => intro h; exact absurd rfl h
  | cons c rest ih =>
    intro _ hend lst hlst
    rcases rest with _ | ⟨c', cs⟩
    · have hc : ¬ c = nlChar := by
        intro h
        exact hend (by simp [h])
      rw [splitOnNL, if_neg hc] at hlst
      have : splitOnNL ([] : Str) = [[]] := rfl
      rw [this] at hlst
      simp only [List.getLast?_singleton, Option.some.injEq] at hlst
      rw [← hlst]
      simp
    · have hrest : (c' :: cs : Str) ≠ [] := by simp
      have hrend : (c' :: cs : Str).getLast? ≠ some nlChar := by
        intro h
        exact hend (by rw [List.getLast?_cons_cons]; exact h)
      rw [splitOnNL] at hlst
      by_cases hc : c = nlChar
      · rw [if_pos hc] at hlst
        rcases hsp : splitOnNL (c' :: cs) with _ | ⟨p, ps⟩
        · exact absurd hsp (splitOnNL_ne_nil _)
        · rw [hsp, List.getLast?_cons_cons] at hlst
          exact ih hrest hrend lst (by rw [hsp]; exact hlst)
      · rw [if_neg hc] at hlst
        rcases hsp : splitOnNL (c' :: cs) with _ | ⟨p, ps⟩
        · exact absurd hsp (splitOnNL_ne_nil _)
        · rw [hsp] at hlst
          rcases ps with _ | ⟨q, qs⟩
          · simp only [List.getLast?_singleton, Option.some.injEq] at hlst
            intro h
            rw [← hlst] at h
            simp at h
          · rw [List.getLast?_cons_cons] at hlst
            exact ih hrest hrend lst
              (by rw [hsp, List.getLast?_cons_cons]; exact hlst)

theorem splitlines_getLast?_ne_nil {t : Str} (htne : t ≠ [])
    (hend : t.getLast? ≠ some nlChar) :
    ∀ lst, (splitlines t).getLast? = some lst → lst ≠ [] := by
  unfold splitlines
  rw [if_neg htne, if_neg hend]
  exact splitOnNL_getLast?_ne_nil htne hend

/-! ### Stripping and lowering -/

theorem dropWhile_head_false {α : Type} (p : α → Bool) :
    ∀ {l : List α} {c : α} {r : List α},
      l.dropWhile p = c :: r → p c = false := by
  intro l
  induction l with
  | nil => intro c r h; simp [List.dropWhile] at h
  | cons a as ih =>
    intro c r h
    rw [List.dropWhile_cons] at h
    by_cases hp : p a
    · rw [if_pos hp] at h
      exact ih h
    · rw [if_neg hp] at h
      obtain ⟨rfl, _⟩ := List.cons.inj h
      simpa using hp

theorem pyLStrip_head {l : Str} {c : Char} {r : Str}
    (h : pyLStrip l = c :: r) : isPySpace c = false :=
  dropWhile_head_false _ h

theorem pyRStrip_prefix_self (l : Str) : pyRStrip l <+: l := by
  have hsuf := List.dropWhile_suffix (l := l.reverse) isPySpace
  exact List.reverse_suffix.mp
    (by rw [pyRStrip, List.reverse_reverse]; exact hsuf)

theorem pyRStrip_getLast_not_space {l : Str} {c : Char}
    (h : (pyRStrip l).getLast? = some c) : isPySpace c = false := by
  rw [pyRStrip, List.getLast?_reverse] at h
  rcases hd : l.reverse.dropWhile isPySpace with _ | ⟨a, as⟩
  · rw [hd] at h; simp at h
  · rw [hd] at h
    simp only [List.head?_cons, Option.some.injEq] at h
    rw [← h]
    exact dropWhile_head_false _ hd

theorem pyStrip_head_not_space {l : Str} {c : Char} {r : Str}
    (h : pyStrip l = c :: r) : isPySpace c = false := by
  rw [pyStrip] at h
  have hpre := pyRStrip_prefix_self (pyLStrip l)
  rw [h] at hpre
  rcases hpre with ⟨t, ht⟩
  exact pyLStrip_head (l := l) (r := r ++ t) (by rw [← ht]; rfl)

theorem pyStrip_getLast_not_space {l : Str} {c : Char}
    (h : (pyStrip l).getLast? = some c) : isPySpace c = false := by
  rw [pyStrip] at h
  exact pyRStrip_getLast_not_space h

theorem pyLStrip_eq_self {l : Str}
    (h : ∀ c, l.head? = some c → isPySpace c = false) : pyLStrip l = l := by
  cases l with
  | nil => rfl
  | cons a as =>
    rw [pyLStrip, List.dropWhile_cons, if_neg]
    simp [h a rfl]

theorem pyRStrip_eq_self {l : Str}
    (h : ∀ c, l.getLast? = some c → isPySpace c = false) :
    pyRStrip l = l := by
  rw [pyRStrip]
  have h2 : l.reverse.dropWhile isPySpace = l.reverse := by
    cases hr : l.reverse with
    | nil => rfl
    | cons a as =>
      rw [List.dropWhile_cons, if_neg]
      have ha : l.getLast? = some a := by
        rw [← List.head?_reverse, hr]; rfl
      simp [h a ha]
  rw [h2, List.reverse_reverse]

theorem pyStrip_eq_self {l : Str}
    (hhead : ∀ c, l.head? = some c → isPySpace c = false)
    (hlast : ∀ c, l.getLast? = some c → isPySpace c = false) :
    pyStrip l = l := by
  rw [pyStrip, pyLStrip_eq_self hhead, pyRStrip_eq_self hlast]

theorem pyStrip_idem (l : Str) : pyStrip (pyStrip l) = pyStrip l := by
  apply pyStrip_eq_self
  · intro c hc
    rcases hs : pyStrip l with _ | ⟨a, r⟩
    · rw [hs] at hc; simp at hc
    · rw [hs] at hc
      simp only [List.head?_cons, Option.some.injEq] at hc
      rw [← hc]
      exact pyStrip_head_not_space hs
  · intro c hc
    exact pyStrip_getLast_not_space hc

theorem mem_of_mem_pyLStrip {c : Char} {l : Str} (h : c ∈ pyLStrip l) :
    c ∈ l :=
  (List.dropWhile_suffix isPySpace).subset h

theorem mem_of_mem_pyRStrip {c : Char} {l : Str} (h : c ∈ pyRStrip l) :
    c ∈ l :=
  (pyRStrip_prefix_self l).subset h

theorem mem_of_mem_pyStrip {c : Char} {l : Str} (h : c ∈ pyStrip l) :
    c ∈ l :=
  mem_of_mem_pyLStrip (mem_of_mem_pyRStrip h)

theorem mem_pyLStrip_of_not_space {c : Char} {l : Str} (hmem : c ∈ l)
    (hs : isPySpace c = false) : c ∈ pyLStrip l := by
  have hsplit := List.takeWhile_append_dropWhile isPySpace l
  rw [← hsplit] at hmem
  rcases List.mem_append.mp hmem with h1 | h1
  · have := List.mem_takeWhile_imp h1
    rw [hs] at this
    exact absurd this (by simp)
  · exact h1

theorem mem_pyRStrip_of_not_space {c : Char} {l : Str} (hmem : c ∈ l)
    (hs : isPySpace c = false) : c ∈ pyRStrip l := by
  rw [pyRStrip, List.mem_reverse]
  exact mem_pyLStrip_of_not_space (List.mem_reverse.mpr hmem) hs

theorem mem_pyStrip_of_not_space {c : Char} {l : Str} (hmem : c ∈ l)
    (hs : isPySpace c = false) : c ∈ pyStrip l :=
  mem_pyRStrip_of_not_space (mem_pyLStrip_of_not_space hmem hs) hs

theorem colon_mem_pyLower {l : Str} (h : (':' : Char) ∈ l) :
    (':' : Char) ∈ pyLower l := by
  have : Char.toLower ':' = ':' := by decide
  rw [pyLower, ← this]
  exact List.mem_map_of_mem Char.toLower h

/-! ### `matchKeyVal` -/

theorem matchKeyVal_none_of_no_colon {l : Str} (h : (':' : Char) ∉ l) :
    matchKeyVal l = none := by
  rw [matchKeyVal]
  rw [if_neg]
  rintro ⟨-, hcol⟩
  rcases hd : (l.drop (l.takeWhile isKeyChar).length) with _ | ⟨a, r⟩
  · rw [hd] at hcol; simp at hcol
  · rw [hd] at hcol
    simp only [List.head?_cons, Option.some.injEq] at hcol
    exact h (List.drop_subset _ l (by rw [hd, hcol]; exact List.mem_cons_self _ _))

theorem matchKeyVal_eq_some {l k v : Str}
    (h : matchKeyVal l = some (k, v)) :
    k = l.takeWhile isKeyChar ∧ k ≠ [] ∧
    (l.drop k.length).head? = some ':' ∧
    v = (l.drop (k.length + 1)).dropWhile isPySpace := by
  rw [matchKeyVal] at h
  by_cases hc : (l.takeWhile isKeyChar ≠ []) ∧
      (l.drop (l.takeWhile isKeyChar).length).head? = some ':'
  · rw [if_pos hc] at h
    obtain ⟨hk, hv⟩ := Prod.mk.inj (Option.some.inj h)
    refine ⟨hk.symm, ?_, ?_, ?_⟩
    · rw [← hk]; exact hc.1
    · rw [← hk]; exact hc.2
    · rw [← hk, ← hv]
  · rw [if_neg hc] at h
    cases h

theorem takeWhile_append_eq {α : Type} (p : α → Bool) :
    ∀ {a : List α} {c : α} {b : List α},
      (∀ x ∈ a, p x = true) → p c = false →
      (a ++ c :: b).takeWhile p = a := by
  intro a
  induction a with
  | nil =>
    intro c b _ hc
    rw [List.nil_append, List.takeWhile_cons, hc, if_neg (by simp)]
  | cons x xs ih =>
    intro c b ha hc
    rw [List.cons_append, List.takeWhile_cons, ha x (by simp), if_pos rfl,
      ih (fun y hy => ha y (List.mem_cons_of_mem x hy)) hc]

theorem matchKeyVal_build {k v : Str} (hk : k ≠ [])
    (hkc : ∀ c ∈ k, isKeyChar c = true) :
    matchKeyVal (k ++ ':' :: v) = some (k, v.dropWhile isPySpace) := by
  have htake : (k ++ ':' :: v).takeWhile isKeyChar = k :=
    takeWhile_append_eq isKeyChar hkc (by decide)
  have hdrop : (k ++ ':' :: v).drop k.length = ':' :: v :=
    List.drop_left k (':' :: v)
  rw [matchKeyVal, htake, if_pos ⟨hk, by rw [hdrop]; rfl⟩]
  have hdrop2 : (k ++ ':' :: v).drop (k.length + 1) = v := by
    have h1 : k ++ ':' :: v = (k ++ [':']) ++ v := by simp
    have h2 : k.length + 1 = (k ++ [':']).length := by simp
    rw [h1, h2, List.drop_left]
  rw [hdrop2]

theorem matchKeyVal_key_chars {l k v : Str}
    (h : matchKeyVal l = some (k, v)) : ∀ c ∈ k, isKeyChar c = true := by
  intro c hc
  obtain ⟨hk, -, -, -⟩ := matchKeyVal_eq_some h
  exact List.mem_takeWhile_imp (hk ▸ hc)

theorem matchKeyVal_key_ne_nil {l k v : Str}
    (h : matchKeyVal l = some (k, v)) : k ≠ [] :=
  (matchKeyVal_eq_some h).2.1

theorem matchKeyVal_val_subset {l k v : Str}
    (h : matchKeyVal l = some (k, v)) : ∀ c ∈ v, c ∈ l := by
  intro c hc
  obtain ⟨-, -, -, hv⟩ := matchKeyVal_eq_some h
  rw [hv] at hc
  exact List.drop_subset _ l ((List.dropWhile_suffix isPySpace).subset hc)

/-! ### `quoteCore` and `quote_value` -/

theorem dropWhile_pySpace_eq_self {l : Str}
    (h : ∀ c r, l = c :: r → isPySpace c = false) :
    l.dropWhile isPySpace = l := by
  cases l with
  | nil => rfl
  | cons a as => rw [List.dropWhile_cons, if_neg (by simp [h a as rfl])]

theorem quoteCore_strip {x : Str} (hx : pyStrip x = x) :
    pyStrip (quoteCore x) = quoteCore x := by
  rw [quoteCore]
  by_cases c1 : ((startsWithChar dqChar x && endsWithChar dqChar x) ||
      (startsWithChar sqChar x && endsWithChar sqChar x)) = true
  · rw [if_pos c1]; exact hx
  · rw [if_neg c1]
    by_cases c2 : pyLower x = "true".toList ∨ pyLower x = "false".toList ∨
        pyLower x = "null".toList
    · rw [if_pos c2]
      rcases c2 with h2 | h2 | h2 <;> rw [h2] <;> decide
    · rw [if_neg c2]
      by_cases c3 : (':' : Char) ∈ x ∨ startsWithChar ' ' x = true ∨
          endsWithChar ' ' x = true ∨ nlChar ∈ x ∨ startsWithChar '#' x = true
      · rw [if_pos c3]
        apply pyStrip_eq_self
        · intro c hc
          simp only [List.head?_cons, Option.some.injEq] at hc
          rw [← hc]; decide
        · intro c hc
          have : (dqChar :: (escapeDq x ++ [dqChar])) =
              ((dqChar :: escapeDq x) ++ [dqChar]) := by
            rw [List.cons_append]
          rw [this, List.getLast?_concat] at hc
          simp only [Option.some.injEq] at hc
          rw [← hc]; decide
      · rw [if_neg c3]; exact hx

theorem quoteCore_idem (x : Str) :
    quoteCore (quoteCore x) = quoteCore x := by
  by_cases c1 : ((startsWithChar dqChar x && endsWithChar dqChar x) ||
      (startsWithChar sqChar x && endsWithChar sqChar x)) = true
  · have hqx : quoteCore x = x := by rw [quoteCore, if_pos c1]
    rw [hqx]
    exact hqx
  · by_cases c2 : pyLower x = "true".toList ∨ pyLower x = "false".toList ∨
        pyLower x = "null".toList
    · have hqx : quoteCore x = pyLower x := by
        rw [quoteCore, if_neg c1, if_pos c2]
      rcases c2 with h2 | h2 | h2 <;> rw [hqx, h2] <;> decide
    · by_cases c3 : (':' : Char) ∈ x ∨ startsWithChar ' ' x = true ∨
          endsWithChar ' ' x = true ∨ nlChar ∈ x ∨ startsWithChar '#' x = true
      · have hqx : quoteCore x = dqChar :: (escapeDq x ++ [dqChar]) := by
          rw [quoteCore, if_neg c1, if_neg c2, if_pos c3]
        rw [hqx]
        have hs : startsWithChar dqChar (dqChar :: (escapeDq x ++ [dqChar])) = true := by
          simp [startsWithChar]
        have he : endsWithChar dqChar (dqChar :: (escapeDq x ++ [dqChar])) = true := by
          rw [endsWithChar]
          have h4 : (dqChar :: (escapeDq x ++ [dqChar])) =
              ((dqChar :: escapeDq x) ++ [dqChar]) := by rw [List.cons_append]
          rw [h4, List.getLast?_concat]
          simp
        rw [quoteCore, if_pos (by rw [hs, he]; simp)]
      · have hqx : quoteCore x = x := by
          rw [quoteCore, if_neg c1, if_neg c2, if_neg c3]
        rw [hqx]
        exact hqx

theorem quote_value_idem (v : Str) :
    quote_value (quote_value v) = quote_value v := by
  rw [quote_value, quote_value, quoteCore_strip (pyStrip_idem v)]
  exact quoteCore_idem (pyStrip v)

theorem quote_value_strip (v : Str) :
    pyStrip (quote_value v) = quote_value v := by
  rw [quote_value]
  exact quoteCore_strip (pyStrip_idem v)

theorem dropWhile_pySpace_quote_value (v : Str) :
    (quote_value v).dropWhile isPySpace = quote_value v := by
  apply dropWhile_pySpace_eq_self
  intro c r h
  exact pyStrip_head_not_space (by rw [quote_value_strip v, h])

theorem colon_mem_escapeDq {x : Str} (h : (':' : Char) ∈ x) :
    (':' : Char) ∈ escapeDq x := by
  rw [escapeDq, List.mem_flatMap]
  exact ⟨':', h, by rw [if_neg (by decide)]; exact List.mem_cons_self _ _⟩

theorem nl_not_mem_escapeDq {x : Str} (h : nlChar ∉ x) :
    nlChar ∉ escapeDq x := by
  rw [escapeDq, List.mem_flatMap]
  rintro ⟨a, ha, hmem⟩
  by_cases hd : a = dqChar
  · rw [if_pos hd] at hmem
    rcases List.mem_cons.mp hmem with h1 | h1
    · exact absurd h1 (by decide)
    · rcases List.mem_cons.mp h1 with h2 | h2
      · exact absurd h2 (by decide)
      · simp at h2
  · rw [if_neg hd] at hmem
    rcases List.mem_cons.mp hmem with h1 | h1
    · exact h (h1 ▸ ha)
    · simp at h1

theorem colon_mem_quoteCore {x : Str} (h : (':' : Char) ∈ x) :
    (':' : Char) ∈ quoteCore x := by
  rw [quoteCore]
  by_cases c1 : ((startsWithChar dqChar x && endsWithChar dqChar x) ||
      (startsWithChar sqChar x && endsWithChar sqChar x)) = true
  · rw [if_pos c1]; exact h
  · rw [if_neg c1]
    by_cases c2 : pyLower x = "true".toList ∨ pyLower x = "false".toList ∨
        pyLower x = "null".toList
    · rw [if_pos c2]
      exact colon_mem_pyLower h
    · rw [if_neg c2]
      rw [if_pos (Or.inl h)]
      exact List.mem_cons_of_mem _ (List.mem_append_left _ (colon_mem_escapeDq h))

theorem colon_mem_quote_value {v : Str} (h : (':' : Char) ∈ v) :
    (':' : Char) ∈ quote_value v := by
  rw [quote_value]
  exact colon_mem_quoteCore (mem_pyStrip_of_not_space h (by decide))

theorem nl_not_mem_quoteCore {x : Str} (hx : nlChar ∉ x) :
    nlChar ∉ quoteCore x := by
  rw [quoteCore]
  by_cases c1 : ((startsWithChar dqChar x && endsWithChar dqChar x) ||
      (startsWithChar sqChar x && endsWithChar sqChar x)) = true
  · rw [if_pos c1]; exact hx
  · rw [if_neg c1]
    by_cases c2 : pyLower x = "true".toList ∨ pyLower x = "false".toList ∨
        pyLower x = "null".toList
    · rw [if_pos c2]
      rcases c2 with h2 | h2 | h2 <;> rw [h2] <;> decide
    · rw [if_neg c2]
      by_cases c3 : (':' : Char) ∈ x ∨ startsWithChar ' ' x = true ∨
          endsWithChar ' ' x = true ∨ nlChar ∈ x ∨ startsWithChar '#' x = true
      · rw [if_pos c3]
        intro hmem
        rcases List.mem_cons.mp hmem with h1 | h1
        · exact absurd h1 (by decide)
        · rcases List.mem_append.mp h1 with h2 | h2
          · exact nl_not_mem_escapeDq hx h2
          · rcases List.mem_cons.mp h2 with h3 | h3
            · exact absurd h3 (by decide)
            · simp at h3
      · rw [if_neg c3]; exact hx

theorem nl_not_mem_quote_value {v : Str} (hv : nlChar ∉ v) :
    nlChar ∉ quote_value v := by
  rw [quote_value]
  exact nl_not_mem_quoteCore (fun h => hv (mem_of_mem_pyStrip h))

/-! ### `normalizeLine` -/

theorem normalizeLine_of_none {l : Str} (h : matchKeyVal l = none) :
    normalizeLine l = l := by
  rw [normalizeLine, h]

theorem colon_mem_of_matched {l : Str} {k v : Str}
    (h : matchKeyVal l = some (k, v)) : (':' : Char) ∈ l := by
  obtain ⟨-, -, hcol, -⟩ := matchKeyVal_eq_some h
  rcases hd : l.drop k.length with _ | ⟨a, r⟩
  · rw [hd] at hcol; simp at hcol
  · rw [hd] at hcol
    simp only [List.head?_cons, Option.some.injEq] at hcol
    exact List.drop_subset _ l (by rw [hd, hcol]; exact List.mem_cons_self _ _)

theorem normalizeLine_of_some {l : Str} {k v : Str}
    (h : matchKeyVal l = some (k, v)) :
    normalizeLine l =
      (if pyLower k = "comments".toList then
        if pyLower (pyStrip v) = "true".toList ∨
           pyLower (pyStrip v) = "false".toList then
          k ++ ": ".toList ++ pyLower (pyStrip v)
        else
          k ++ ": true".toList
      else if pyLower k = "title".toList ∨ pyLower k = "description".toList ∨
              ':' ∈ v then
        k ++ ": ".toList ++ quote_value v
      else
        l) := by
  rw [normalizeLine, h]

theorem colon_mem_normalizeLine_of_matched {l : Str} {k v : Str}
    (h : matchKeyVal l = some (k, v)) : (':' : Char) ∈ normalizeLine l := by
  rw [normalizeLine_of_some h]
  have hmid : (':' : Char) ∈ ": ".toList := by decide
  by_cases hcom : pyLower k = "comments".toList
  · rw [if_pos hcom]
    by_cases hv : pyLower (pyStrip v) = "true".toList ∨
        pyLower (pyStrip v) = "false".toList
    · rw [if_pos hv]
      exact List.mem_append_left _ (List.mem_append_right k hmid)
    · rw [if_neg hv]
      exact List.mem_append_right k (show (':' : Char) ∈ ": true".toList by decide)
  · rw [if_neg hcom]
    by_cases hq : pyLower k = "title".toList ∨
        pyLower k = "description".toList ∨ ':' ∈ v
    · rw [if_pos hq]
      exact List.mem_append_left _ (List.mem_append_right k hmid)
    · rw [if_neg hq]
      exact colon_mem_of_matched h

theorem normalizeLine_ne_dashes {l : Str} (hl : l ≠ "---".toList) :
    normalizeLine l ≠ "---".toList := by
  rcases h : matchKeyVal l with _ | ⟨k, v⟩
  · rw [normalizeLine_of_none h]; exact hl
  · intro hcon
    have := colon_mem_normalizeLine_of_matched h
    rw [hcon] at this
    exact absurd this (by decide)

theorem normalizeLine_dashes : normalizeLine "---".toList = "---".toList := by
  decide

theorem normalizeLine_ne_nil {l : Str} (hl : l ≠ []) :
    normalizeLine l ≠ [] := by
  rcases h : matchKeyVal l with _ | ⟨k, v⟩
  · rw [normalizeLine_of_none h]; exact hl
  · have hk := matchKeyVal_key_ne_nil h
    rw [normalizeLine_of_some h]
    by_cases hcom : pyLower k = "comments".toList
    · rw [if_pos hcom]
      by_cases hv : pyLower (pyStrip v) = "true".toList ∨
          pyLower (pyStrip v) = "false".toList
      · rw [if_pos hv]; simp [hk]
      · rw [if_neg hv]; simp [hk]
    · rw [if_neg hcom]
      by_cases hq : pyLower k = "title".toList ∨
          pyLower k = "description".toList ∨ ':' ∈ v
      · rw [if_pos hq]; simp [hk]
      · rw [if_neg hq]; exact hl

theorem nl_not_mem_normalizeLine {l : Str} (hl : nlChar ∉ l) :
    nlChar ∉ normalizeLine l := by
  rcases h : matchKeyVal l with _ | ⟨k, v⟩
  · rw [normalizeLine_of_none h]; exact hl
  · have hknl : nlChar ∉ k := by
      intro hmem
      obtain ⟨hk, -, -, -⟩ := matchKeyVal_eq_some h
      exact hl ((List.takeWhile_prefix isKeyChar).subset (hk ▸ hmem))
    have hvnl : nlChar ∉ v := fun hmem => hl (matchKeyVal_val_subset h _ hmem)
    rw [normalizeLine_of_some h]
    by_cases hcom : pyLower k = "comments".toList
    · rw [if_pos hcom]
      by_cases hv : pyLower (pyStrip v) = "true".toList ∨
          pyLower (pyStrip v) = "false".toList
      · rw [if_pos hv]
        intro hmem
        rcases List.mem_append.mp hmem with h1 | h1
        · rcases List.mem_append.mp h1 with h2 | h2
          · exact hknl h2
          · exact absurd h2 (by decide)
        · rcases hv with h3 | h3 <;> rw [h3] at h1 <;>
            exact absurd h1 (by decide)
      · rw [if_neg hv]
        intro hmem
        rcases List.mem_append.mp hmem with h1 | h1
        · exact hknl h1
        · exact absurd h1 (by decide)
    · rw [if_neg hcom]
      by_cases hq : pyLower k = "title".toList ∨
          pyLower k = "description".toList ∨ ':' ∈ v
      · rw [if_pos hq]
        intro hmem
        rcases List.mem_append.mp hmem with h1 | h1
        · rcases List.mem_append.mp h1 with h2 | h2
          · exact hknl h2
          · exact absurd h2 (by decide)
        · exact nl_not_mem_quote_value hvnl h1
      · rw [if_neg hq]; exact hl

theorem matchKeyVal_rebuild (k w : Str) (hk : k ≠ [])
    (hkc : ∀ c ∈ k, isKeyChar c = true)
    (hv : w.dropWhile isPySpace = w) :
    matchKeyVal (k ++ ": ".toList ++ w) = some (k, w) := by
  have h1 : k ++ ": ".toList ++ w = k ++ ':' :: (' ' :: w) := by
    rw [List.append_assoc]
    rfl
  rw [h1, matchKeyVal_build hk hkc]
  have h2 : (' ' :: w).dropWhile isPySpace = w := by
    rw [List.dropWhile_cons, if_pos (by decide)]
    exact hv
  rw [h2]

theorem normalizeLine_idem (l : Str) :
    normalizeLine (normalizeLine l) = normalizeLine l := by
  rcases h : matchKeyVal l with _ | ⟨k, v⟩
  · rw [normalizeLine_of_none h, normalizeLine_of_none h]
  · have hk := matchKeyVal_key_ne_nil h
    have hkc := matchKeyVal_key_chars h
    by_cases hcom : pyLower k = "comments".toList
    · by_cases hv : pyLower (pyStrip v) = "true".toList ∨
          pyLower (pyStrip v) = "false".toList
      · have h1 : normalizeLine l = k ++ ": ".toList ++ pyLower (pyStrip v) := by
          rw [normalizeLine_of_some h, if_pos hcom, if_pos hv]
        rcases hv with h3 | h3
        · rw [h1, h3]
          have hm := matchKeyVal_rebuild k "true".toList hk hkc (by decide)
          rw [normalizeLine_of_some hm, if_pos hcom,
            if_pos (Or.inl (show pyLower (pyStrip "true".toList) = "true".toList by decide)),
            show pyLower (pyStrip "true".toList) = "true".toList by decide]
        · rw [h1, h3]
          have hm := matchKeyVal_rebuild k "false".toList hk hkc (by decide)
          rw [normalizeLine_of_some hm, if_pos hcom,
            if_pos (Or.inr (show pyLower (pyStrip "false".toList) = "false".toList by decide)),
            show pyLower (pyStrip "false".toList) = "false".toList by decide]
      · have h1 : normalizeLine l = k ++ ": true".toList := by
          rw [normalizeLine_of_some h, if_pos hcom, if_neg hv]
        have h2 : k ++ ": true".toList = k ++ ": ".toList ++ "true".toList := by
          rw [List.append_assoc]
          rfl
        rw [h1, h2]
        have hm := matchKeyVal_rebuild k "true".toList hk hkc (by decide)
        rw [normalizeLine_of_some hm, if_pos hcom,
          if_pos (Or.inl (show pyLower (pyStrip "true".toList) = "true".toList by decide)),
          show pyLower (pyStrip "true".toList) = "true".toList by decide]
    · by_cases hq : pyLower k = "title".toList ∨
          pyLower k = "description".toList ∨ ':' ∈ v
      · have h1 : normalizeLine l = k ++ ": ".toList ++ quote_value v := by
          rw [normalizeLine_of_some h, if_neg hcom, if_pos hq]
        rw [h1]
        have hm := matchKeyVal_rebuild k (quote_value v) hk hkc (dropWhile_pySpace_quote_value v)
        rw [normalizeLine_of_some hm, if_neg hcom]
        have hq2 : pyLower k = "title".toList ∨ pyLower k = "description".toList ∨
            (':' : Char) ∈ quote_value v := by
          rcases hq with h2 | h2 | h2
          · exact Or.inl h2
          · exact Or.inr (Or.inl h2)
          · exact Or.inr (Or.inr (colon_mem_quote_value h2))
        rw [if_pos hq2, quote_value_idem]
      · have h1 : normalizeLine l = l := by
          rw [normalizeLine_of_some h, if_neg hcom, if_neg hq]
        rw [h1, h1]

theorem normalize_idem (L : List Str) :
    normalize_front_matter_lines (normalize_front_matter_lines L) =
      normalize_front_matter_lines L := by
  rw [normalize_front_matter_lines, normalize_front_matter_lines,
    List.map_map]
  exact List.map_congr_left (fun l _ => normalizeLine_idem l)

/-! ### `findDashIdx` and the rewrite paths -/

theorem getLast?_of_suffix {α : Type} {a b : List α} (h : a <:+ b)
    (ha : a ≠ []) : b.getLast? = a.getLast? := by
  obtain ⟨pre, rfl⟩ := h
  exact List.getLast?_append_of_ne_nil pre ha

theorem findDashIdx_none_iff {ls : List Str} :
    findDashIdx ls = none ↔ ∀ l ∈ ls, l ≠ "---".toList := by
  induction ls with
  | nil => simp [findDashIdx]
  | cons x xs ih =>
    rw [findDashIdx]
    by_cases hx : x = "---".toList
    · rw [if_pos hx]
      simp [hx]
    · rw [if_neg hx]
      constructor
      · intro h l hl
        rcases List.mem_cons.mp hl with h1 | h1
        · rw [h1]; exact hx
        · have hn : findDashIdx xs = none := by
            cases hfd : findDashIdx xs with
            | none => rfl
            | some k => rw [hfd] at h; simp at h
          exact (ih.mp hn) l h1
      · intro h
        rw [ih.mpr (fun l hl => h l (List.mem_cons_of_mem x hl))]
        rfl

theorem findDashIdx_take_ne : ∀ {ls : List Str} {k : Nat},
    findDashIdx ls = some k → ∀ l ∈ ls.take k, l ≠ "---".toList := by
  intro ls
  induction ls with
  | nil => intro k _ l hl; simp at hl
  | cons x xs ih =>
    intro k h l hl
    rw [findDashIdx] at h
    by_cases hx : x = "---".toList
    · rw [if_pos hx] at h
      have hk : k = 0 := (Option.some.inj h).symm
      rw [hk] at hl
      simp at hl
    · rw [if_neg hx] at h
      cases hfd : findDashIdx xs with
      | none => rw [hfd] at h; simp at h
      | some k' =>
        rw [hfd] at h
        simp at h
        rw [← h, List.take_succ_cons] at hl
        rcases List.mem_cons.mp hl with h1 | h1
        · rw [h1]; exact hx
        · exact ih hfd l h1

theorem findDashIdx_append_dashes {a : List Str} (b : List Str)
    (ha : ∀ l ∈ a, l ≠ "---".toList) :
    findDashIdx (a ++ "---".toList :: b) = some a.length := by
  induction a with
  | nil => rw [List.nil_append, findDashIdx, if_pos rfl]; rfl
  | cons x xs ih =>
    rw [List.cons_append, findDashIdx, if_neg (ha x (by simp)),
      ih (fun l hl => ha l (List.mem_cons_of_mem x hl))]
    rfl

theorem fixFirstSource_cons {t l0 : Str} {rest : List Str}
    (hsp : splitlines t = l0 :: rest) :
    fixFirstSource t = fmRewrite t l0 rest := by
  unfold fixFirstSource
  rw [hsp]

theorem joinNL_cons_of_ne_nil {l : Str} {ls : List Str} (h : ls ≠ []) :
    joinNL (l :: ls) = l ++ nlChar :: joinNL ls := by
  rcases ls with _ | ⟨l', ls'⟩
  · exact absurd rfl h
  · rw [joinNL]

theorem detectFM_dashes_append (s : Str) :
    detectFM ("---".toList ++ s) = true := by
  rw [detectFM]
  have h1 : pyLStrip ("---".toList ++ s) = "---".toList ++ s := by
    apply pyLStrip_eq_self
    intro c hc
    have h2 : ("---".toList ++ s).head? = some '-' := rfl
    rw [h2] at hc
    simp only [Option.some.injEq] at hc
    rw [← hc]
    decide
  rw [h1]
  have h2 : "---".toList.isPrefixOf ("---".toList ++ s) = true := by
    rw [List.isPrefixOf_iff_prefix]
    exact ⟨s, rfl⟩
  rw [h2, Bool.true_or]

theorem fixFirstSource_closed_eq {t l0 : Str} {rest : List Str} {k : Nat}
    (hsp : splitlines t = l0 :: rest) (h0 : pyStrip l0 = "---".toList)
    (hfd : findDashIdx rest = some k) :
    fixFirstSource t =
      joinNL (("---".toList :: normalize_front_matter_lines (rest.take k)) ++
        ("---".toList :: rest.drop (k + 1))) ++
      (if t.getLast? = some nlChar then [nlChar] else []) := by
  rw [fixFirstSource_cons hsp, fmRewrite, if_pos h0, hfd]
  rfl

theorem fixFirstSource_closed_stable {t l0 : Str} {rest : List Str} {k : Nat}
    (hsp : splitlines t = l0 :: rest) (h0 : pyStrip l0 = "---".toList)
    (hfd : findDashIdx rest = some k) :
    fixFirstSource (fixFirstSource t) = fixFirstSource t ∧
    detectFM (fixFirstSource t) = true := by
  have htne : t ≠ [] := by
    intro h
    rw [h] at hsp
    simp [splitlines] at hsp
  have hfree_rest : ∀ l ∈ rest, nlChar ∉ l := by
    intro l hl
    exact nl_not_mem_of_mem_splitlines
      (by rw [hsp]; exact List.mem_cons_of_mem _ hl)
  have hfree_newL : ∀ l ∈ ("---".toList ::
      normalize_front_matter_lines (rest.take k)) ++
      ("---".toList :: rest.drop (k + 1)), nlChar ∉ l := by
    intro l hl
    rcases List.mem_append.mp hl with h1 | h1
    · rcases List.mem_cons.mp h1 with h2 | h2
      · rw [h2]; decide
      · rw [normalize_front_matter_lines] at h2
        obtain ⟨x, hx, rfl⟩ := List.mem_map.mp h2
        exact nl_not_mem_normalizeLine
          (hfree_rest x (List.take_subset _ _ hx))
    · rcases List.mem_cons.mp h1 with h2 | h2
      · rw [h2]; decide
      · exact hfree_rest l (List.drop_subset _ _ h2)
  have hEq := fixFirstSource_closed_eq hsp h0 hfd
  have hboth : splitlines (fixFirstSource t) =
      ("---".toList :: normalize_front_matter_lines (rest.take k)) ++
      ("---".toList :: rest.drop (k + 1)) ∧
      ((fixFirstSource t).getLast? = some nlChar ↔
        t.getLast? = some nlChar) := by
    by_cases hend : t.getLast? = some nlChar
    · rw [hEq, if_pos hend]
      refine ⟨splitlines_joinNL_nl (by simp) hfree_newL, ?_⟩
      rw [List.getLast?_concat]
      simp [hend]
    · rw [hEq, if_neg hend, List.append_nil]
      have hlst : ∃ lst, (("---".toList ::
          normalize_front_matter_lines (rest.take k)) ++
          ("---".toList :: rest.drop (k + 1))).getLast? = some lst ∧
          lst ≠ [] ∧ nlChar ∉ lst := by
        rcases htl : rest.drop (k + 1) with _ | ⟨a, as⟩
        · refine ⟨"---".toList, ?_, by decide, by decide⟩
          rw [List.getLast?_append_of_ne_nil _ (by simp)]
          rfl
        · have hlines_ne : splitlines t ≠ [] := by rw [hsp]; simp
          obtain ⟨lst, hlst⟩ : ∃ lst, (splitlines t).getLast? = some lst := by
            cases hgl : (splitlines t).getLast? with
            | none => exact absurd (List.getLast?_eq_none_iff.mp hgl) hlines_ne
            | some lst => exact ⟨lst, rfl⟩
          have hlst_ne : lst ≠ [] :=
            splitlines_getLast?_ne_nil htne hend lst hlst
          have hsuf : (a :: as : List Str) <:+ splitlines t := by
            rw [hsp, ← htl]
            exact (List.drop_suffix _ _).trans (List.suffix_cons l0 rest)
          have h5 : (a :: as : List Str).getLast? = some lst := by
            rw [← getLast?_of_suffix hsuf (by simp), hlst]
          refine ⟨lst, ?_, hlst_ne, ?_⟩
          · rw [List.getLast?_append_of_ne_nil _ (by simp),
              List.getLast?_cons_cons, h5]
          · exact nl_not_mem_of_mem_splitlines (List.mem_of_mem_getLast? hlst)
      obtain ⟨lst, hlst, hlst_ne, hlst_free⟩ := hlst
      refine ⟨splitlines_joinNL (by simp) hfree_newL hlst hlst_ne, ?_⟩
      have h6 := joinNL_getLast?_ne_nl hlst hlst_ne hlst_free
      constructor
      · intro h; exact absurd h h6
      · intro h; exact absurd h hend
  obtain ⟨hsplitS, hSend⟩ := hboth
  have hsplitS' : splitlines (fixFirstSource t) =
      "---".toList :: (normalize_front_matter_lines (rest.take k) ++
        ("---".toList :: rest.drop (k + 1))) := by
    rw [hsplitS, List.cons_append]
  have hNdash : ∀ l ∈ normalize_front_matter_lines (rest.take k),
      l ≠ "---".toList := by
    intro l hl
    rw [normalize_front_matter_lines] at hl
    obtain ⟨x, hx, rfl⟩ := List.mem_map.mp hl
    exact normalizeLine_ne_dashes (findDashIdx_take_ne hfd x hx)
  have hfd' : findDashIdx (normalize_front_matter_lines (rest.take k) ++
      ("---".toList :: rest.drop (k + 1))) =
      some (normalize_front_matter_lines (rest.take k)).length :=
    findDashIdx_append_dashes _ hNdash
  constructor
  · rw [fixFirstSource_cons hsplitS', fmRewrite, if_pos (by decide), hfd']
    show joinNL (("---".toList :: normalize_front_matter_lines
        ((normalize_front_matter_lines (rest.take k) ++
          ("---".toList :: rest.drop (k + 1))).take
          (normalize_front_matter_lines (rest.take k)).length)) ++
        ("---".toList :: (normalize_front_matter_lines (rest.take k) ++
          ("---".toList :: rest.drop (k + 1))).drop
          ((normalize_front_matter_lines (rest.take k)).length + 1))) ++
      (if (fixFirstSource t).getLast? = some nlChar then [nlChar] else []) =
      fixFirstSource t
    have hdrop : (normalize_front_matter_lines (rest.take k) ++
        ("---".toList :: rest.drop (k + 1))).drop
        ((normalize_front_matter_lines (rest.take k)).length + 1) =
        rest.drop (k + 1) := by
      have h1 : normalize_front_matter_lines (rest.take k) ++
          ("---".toList :: rest.drop (k + 1)) =
          (normalize_front_matter_lines (rest.take k) ++ ["---".toList]) ++
          rest.drop (k + 1) := by simp
      have h2 : (normalize_front_matter_lines (rest.take k)).length + 1 =
          (normalize_front_matter_lines (rest.take k) ++
            ["---".toList]).length := by simp
      rw [h1, h2, List.drop_left]
    rw [List.take_left, hdrop, normalize_idem]
    by_cases hend : t.getLast? = some nlChar
    · rw [if_pos (hSend.mpr hend), hEq, if_pos hend]
    · rw [if_neg (fun h => hend (hSend.mp h)), hEq, if_neg hend]
  · have h6 : normalize_front_matter_lines (rest.take k) ++
        ("---".toList :: rest.drop (k + 1)) ≠ [] := by simp
    rw [hEq, List.cons_append, joinNL_cons_of_ne_nil h6,
      List.append_assoc]
    exact detectFM_dashes_append _

/-! ### Cell passes -/

theorem ensureIdsFrom_length (gen : Nat → Str) :
    ∀ (i : Nat) (cs : List Cell),
      (ensureIdsFrom gen i cs).1.length = cs.length := by
  intro i cs
  induction cs generalizing i with
  | nil => rfl
  | cons c cs ih =>
    rw [ensureIdsFrom]
    by_cases hc : c.id = none ∨ c.id = some []
    · rw [if_pos hc]
      simp [ih (i + 1)]
    · rw [if_neg hc]
      simp [ih (i + 1)]

theorem ensureIdsFrom_getElem? (gen : Nat → Str) :
    ∀ (cs : List Cell) (i j : Nat) (c : Cell), cs[j]? = some c →
      (ensureIdsFrom gen i cs).1[j]? =
        some (if c.id = none ∨ c.id = some [] then
          ⟨c.cell_type, c.source, some (gen (i + j))⟩ else c) := by
  intro cs
  induction cs with
  | nil => intro i j c h; simp at h
  | cons d ds ih =>
    intro i j c h
    rcases j with _ | j
    · simp only [List.getElem?_cons_zero, Option.some.injEq] at h
      rw [ensureIdsFrom]
      by_cases hd : d.id = none ∨ d.id = some []
      · rw [if_pos hd]
        rw [← h] at *
        simp [if_pos hd]
      · rw [if_neg hd]
        rw [← h] at *
        simp [if_neg hd]
    · simp only [List.getElem?_cons_succ] at h
      rw [ensureIdsFrom]
      by_cases hd : d.id = none ∨ d.id = some []
      · rw [if_pos hd]
        simp only [List.getElem?_cons_succ]
        rw [ih (i + 1) j c h]
        have : i + 1 + j = i + (j + 1) := by omega
        rw [this]
      · rw [if_neg hd]
        simp only [List.getElem?_cons_succ]
        rw [ih (i + 1) j c h]
        have : i + 1 + j = i + (j + 1) := by omega
        rw [this]

theorem ensureIdsFrom_flag (gen : Nat → Str) :
    ∀ (i : Nat) (cs : List Cell),
      (ensureIdsFrom gen i cs).2 =
        cs.any (fun c => decide (c.id = none ∨ c.id = some [])) := by
  intro i cs
  induction cs generalizing i with
  | nil => rfl
  | cons c cs ih =>
    rw [ensureIdsFrom, List.any_cons]
    by_cases hc : c.id = none ∨ c.id = some []
    · rw [if_pos hc]
      simp [hc]
    · rw [if_neg hc]
      simp only [decide_eq_true_eq]
      rw [ih (i + 1)]
      simp [hc]

theorem ensureIdsFrom_nochange (gen : Nat → Str) :
    ∀ (i : Nat) (cs : List Cell),
      (∀ c ∈ cs, ¬(c.id = none ∨ c.id = some [])) →
      ensureIdsFrom gen i cs = (cs, false) := by
  intro i cs
  induction cs generalizing i with
  | nil => intro _; rfl
  | cons c cs ih =>
    intro h
    rw [ensureIdsFrom, if_neg (h c (by simp)),
      ih (i + 1) (fun d hd => h d (List.mem_cons_of_mem c hd))]

theorem ensureIdsFrom_good (gen : Nat → Str) (hgen : ∀ n, gen n ≠ []) :
    ∀ (cs : List Cell) (i : Nat) (c : Cell),
      c ∈ (ensureIdsFrom gen i cs).1 → c.id ≠ none ∧ c.id ≠ some [] := by
  intro cs
  induction cs with
  | nil => intro i c h; simp [ensureIdsFrom] at h
  | cons d ds ih =>
    intro i c h
    rw [ensureIdsFrom] at h
    by_cases hd : d.id = none ∨ d.id = some []
    · rw [if_pos hd] at h
      rcases List.mem_cons.mp h with h1 | h1
      · rw [h1]
        refine ⟨by simp, ?_⟩
        simp only [ne_eq, Option.some.injEq]
        exact hgen i
      · exact ih (i + 1) c h1
    · rw [if_neg hd] at h
      rcases List.mem_cons.mp h with h1 | h1
      · rw [h1]
        push_neg at hd
        exact hd
      · exact ih (i + 1) c h1

theorem fmStep_nil : fmStep [] = ([], false) := rfl

theorem fmStep_detect (first : Cell) (rest : List Cell)
    (h : detectFM (srcText first.source) = true) :
    fmStep (first :: rest) =
      (⟨"markdown".toList, .str (fixFirstSource (srcText first.source)),
        first.id⟩ :: rest, true) := by
  rw [fmStep]
  simp only [h, if_true]

theorem fmStep_nodetect (first : Cell) (rest : List Cell)
    (h : detectFM (srcText first.source) = false) :
    fmStep (first :: rest) = (first :: rest, false) := by
  rw [fmStep]
  simp only [h, Bool.false_eq_true, if_false]

theorem fmStep_length (cells : List Cell) :
    (fmStep cells).1.length = cells.length := by
  rcases cells with _ | ⟨first, rest⟩
  · rfl
  · by_cases h : detectFM (srcText first.source) = true
    · rw [fmStep_detect _ _ h]
      simp
    · rw [fmStep_nodetect _ _ (by simpa using h)]

theorem fmStep_id_map (cells : List Cell) :
    (fmStep cells).1.map Cell.id = cells.map Cell.id := by
  rcases cells with _ | ⟨first, rest⟩
  · rfl
  · by_cases h : detectFM (srcText first.source) = true
    · rw [fmStep_detect _ _ h]
      simp
    · rw [fmStep_nodetect _ _ (by simpa using h)]

/-! ### Pipeline helpers -/

theorem fixNotebookContent_cells (gen : Nat → Str) (cells : List Cell) :
    (fixNotebookContent gen cells).1 =
      (fmStep (ensureIdsFrom gen 0 cells).1).1 := rfl

theorem fixNotebookContent_flag (gen : Nat → Str) (cells : List Cell) :
    (fixNotebookContent gen cells).2 =
      ((ensureIdsFrom gen 0 cells).2 ||
        (fmStep (ensureIdsFrom gen 0 cells).1).2) := rfl

theorem fixNotebookContent_good_ids (gen : Nat → Str)
    (hgen : ∀ n, gen n ≠ []) (cells : List Cell) :
    ∀ c ∈ (fixNotebookContent gen cells).1,
      c.id ≠ none ∧ c.id ≠ some [] := by
  intro c hc
  have hmap : (fixNotebookContent gen cells).1.map Cell.id =
      (ensureIdsFrom gen 0 cells).1.map Cell.id := fmStep_id_map _
  have hcid : c.id ∈ (fixNotebookContent gen cells).1.map Cell.id :=
    List.mem_map_of_mem _ hc
  rw [hmap] at hcid
  obtain ⟨d, hd, hdi⟩ := List.mem_map.mp hcid
  have hgood := ensureIdsFrom_good gen hgen cells 0 d hd
  exact ⟨hdi ▸ hgood.1, hdi ▸ hgood.2⟩

theorem ensureIdsFrom_cons (gen : Nat → Str) (i : Nat) (c : Cell)
    (cs : List Cell) :
    ∃ id1, (ensureIdsFrom gen i (c :: cs)).1 =
      ⟨c.cell_type, c.source, id1⟩ :: (ensureIdsFrom gen (i + 1) cs).1 := by
  rw [ensureIdsFrom]
  by_cases hc : c.id = none ∨ c.id = some []
  · exact ⟨some (gen i), by rw [if_pos hc]⟩
  · exact ⟨c.id, by rw [if_neg hc]⟩

theorem changed_flag_eq (gen : Nat → Str) (cells : List Cell) :
    (fixNotebookContent gen cells).2 =
      (cells.any (fun c => decide (c.id = none ∨ c.id = some [])) ||
       (match cells with
        | [] => false
        | first :: _ => detectFM (srcText first.source))) := by
  rw [fixNotebookContent_flag, ensureIdsFrom_flag]
  congr 1
  rcases cells with _ | ⟨first, cs⟩
  · rfl
  · obtain ⟨id1, h1⟩ := ensureIdsFrom_cons gen 0 first cs
    rw [h1]
    by_cases hdet : detectFM (srcText first.source) = true
    · rw [fmStep_detect ⟨first.cell_type, first.source, id1⟩ _ hdet]
      exact hdet.symm
    · have hdet' : detectFM (srcText first.source) = false := by
        simpa using hdet
      rw [fmStep_nodetect ⟨first.cell_type, first.source, id1⟩ _ hdet']
      exact hdet'.symm

/-! ### Specification-side definitions for refinement claims -/

/-- Python's substring test `pat in s`: `pat` occurs contiguously in
`l`. -/
def containsSub (pat l : Str) : Bool :=
  (List.range (l.length + 1)).any (fun i => pat.isPrefixOf (l.drop i))

/-- C2 specification-side detection rule, transcribed from the spec's
words: the source, left-trimmed, starts with `---`, OR the literal
substring `title:` appears within (one of) the first three lines. -/
def detectSpecC2 (t : Str) : Str → Bool := fun pat =>
  "---".toList.isPrefixOf (pyLStrip t) ||
  ((splitlines t).take 3).any (fun l => containsSub pat l)

/-- C4 specification-side quoting rule, transcribed from the spec's
words (§4.5): trim surrounding whitespace; if the trimmed value starts
and ends with a double quote, or starts and ends with a single quote,
return it unchanged; else if it case-insensitively equals `true`,
`false` or `null`, return it lowercased and unquoted; else if it
contains a colon, starts or ends with a space, contains a newline, or
starts with `#`, wrap it in double quotes with every embedded double
quote escaped; otherwise return the trimmed value unchanged. -/
def quoteSpecC4 (raw : Str) : Str :=
  if (startsWithChar dqChar (pyStrip raw) &&
      endsWithChar dqChar (pyStrip raw)) ||
     (startsWithChar sqChar (pyStrip raw) &&
      endsWithChar sqChar (pyStrip raw)) then
    pyStrip raw
  else if pyLower (pyStrip raw) = "true".toList ∨
          pyLower (pyStrip raw) = "false".toList ∨
          pyLower (pyStrip raw) = "null".toList then
    pyLower (pyStrip raw)
  else if ':' ∈ pyStrip raw ∨ startsWithChar ' ' (pyStrip raw) = true ∨
          endsWithChar ' ' (pyStrip raw) = true ∨ nlChar ∈ pyStrip raw ∨
          startsWithChar '#' (pyStrip raw) = true then
    dqChar :: (escapeDq (pyStrip raw) ++ [dqChar])
  else
    pyStrip raw

/-! ### Claim theorems -/

/-- C9: on a document whose read fails structurally, the per-document
pipeline returns immediately: it writes nothing and prints no log
line (and, being a total function, propagates no error), so the batch
driver continues with the next document. -/
theorem unreadable_document_skipped :
    ∀ (gen : Nat → Str) (writeOk : Bool),
      fixNotebookEffects gen writeOk ReadResult.failed =
        ⟨none, 0⟩ :=
  fun _ _ => rfl

/-- C3: a front-matter line matching the key:value pattern whose key
is case-insensitively `comments` is rewritten to `<key>: true` or
`<key>: false` with the value exactly lowercase; the value is `false`
exactly when the trimmed, lowercased input value is `false`, and
`true` for every other input value. -/
theorem comments_bool_coercion (line key val : Str)
    (hm : matchKeyVal line = some (key, val))
    (hk : pyLower key = "comments".toList) :
    normalizeLine line = key ++ ": ".toList ++
      (if pyLower (pyStrip val) = "false".toList then "false".toList
       else "true".toList) := by
  rw [normalizeLine_of_some hm, if_pos hk]
  by_cases hv : pyLower (pyStrip val) = "true".toList ∨
      pyLower (pyStrip val) = "false".toList
  · rw [if_pos hv]
    rcases hv with h | h
    · rw [h, if_neg (by decide)]
    · rw [h, if_pos rfl]
  · rw [if_neg hv]
    push_neg at hv
    rw [if_neg hv.2, List.append_assoc]
    rfl

/-- C3 witness: `comments: yes` is rewritten to `comments: true`. -/
theorem comments_bool_coercion_witness :
    matchKeyVal "comments: yes".toList =
      some ("comments".toList, "yes".toList) ∧
    pyLower "comments".toList = "comments".toList ∧
    normalizeLine "comments: yes".toList =
      "comments".toList ++ ": ".toList ++
      (if pyLower (pyStrip "yes".toList) = "false".toList then
        "false".toList else "true".toList) :=
  ⟨by decide, by decide,
    comments_bool_coercion "comments: yes".toList "comments".toList
      "yes".toList (by decide) (by decide)⟩

/-- C4: `quote_value` behaves exactly as the specification's quoting
rule describes, on every input string. -/
theorem quote_value_matches_spec :
    ∀ raw : Str, quote_value raw = quoteSpecC4 raw := by
  intro raw
  rw [quote_value, quoteCore, quoteSpecC4]

/-- C2 counterexample: a first line `title: My Post` contains the
literal substring `title:`, so the claim's rule says detection (and
the normalization/retag step) runs; but the code's test is Python
list membership — none of the first three lines *equals* `title:` —
so detection fails and the step does not run. -/
theorem detection_rule_counterexample :
    detectSpecC2 "title: My Post".toList "title:".toList = true ∧
    detectFM "title: My Post".toList = false ∧
    fmStep [⟨"code".toList, Source.str "title: My Post".toList,
      some ['x']⟩] =
      ([⟨"code".toList, Source.str "title: My Post".toList, some ['x']⟩],
        false) :=
  ⟨by decide, by decide, fmStep_nodetect _ _ (by decide)⟩

/-- C2 amended: for every non-empty document, the normalization/retag
step runs if and only if the first cell's source, left-trimmed, starts
with `---`, OR one of the first three lines of that source is exactly
the string `title:` (list membership, not substring search). -/
theorem detection_rule_amended (first : Cell) (rest : List Cell) :
    (fmStep (first :: rest)).2 =
      ("---".toList.isPrefixOf (pyLStrip (srcText first.source)) ||
       ((splitlines (srcText first.source)).take 3).contains
         "title:".toList) := by
  by_cases hdet : detectFM (srcText first.source) = true
  · rw [fmStep_detect _ _ hdet]
    rw [detectFM] at hdet
    exact hdet.symm
  · have hdet' : detectFM (srcText first.source) = false := by
      simpa using hdet
    rw [fmStep_nodetect _ _ hdet']
    rw [detectFM] at hdet'
    exact hdet'.symm

/-- C8: when the first line (trimmed) is `---` but no later line is
exactly `---`, processing is total (no exception is modelled to
escape — the `ValueError` is caught); all lines, including the
opening `---` (which is left unchanged, as it cannot match the
key:value pattern), are normalized and joined by newlines, and the
normalized lines after the first contain no synthetic `---` closing
delimiter. -/
theorem noclose_fallback (t l0 : Str) (rest : List Str)
    (hsp : splitlines t = l0 :: rest)
    (h0 : pyStrip l0 = "---".toList)
    (hnc : findDashIdx rest = none) :
    fixFirstSource t = joinNL (normalize_front_matter_lines (l0 :: rest)) ∧
    normalizeLine l0 = l0 ∧
    (∀ l ∈ normalize_front_matter_lines rest, l ≠ "---".toList) := by
  refine ⟨?_, ?_, ?_⟩
  · rw [fixFirstSource_cons hsp, fmRewrite, if_pos h0, hnc]
    rfl
  · apply normalizeLine_of_none
    apply matchKeyVal_none_of_no_colon
    intro hc
    have hmem := mem_pyStrip_of_not_space hc (by decide)
    rw [h0] at hmem
    exact absurd hmem (by decide)
  · intro l hl
    rw [normalize_front_matter_lines] at hl
    obtain ⟨x, hx, rfl⟩ := List.mem_map.mp hl
    exact normalizeLine_ne_dashes (findDashIdx_none_iff.mp hnc x hx)

/-- C8 witness: the spec's own scenario, first-cell source
`---\ntitle: X`. -/
theorem noclose_fallback_witness :
    splitlines "---\ntitle: X".toList =
      ["---".toList, "title: X".toList] ∧
    pyStrip "---".toList = "---".toList ∧
    findDashIdx ["title: X".toList] = none ∧
    (fixFirstSource "---\ntitle: X".toList =
      joinNL (normalize_front_matter_lines
        ["---".toList, "title: X".toList]) ∧
     normalizeLine "---".toList = "---".toList ∧
     (∀ l ∈ normalize_front_matter_lines ["title: X".toList],
        l ≠ "---".toList)) :=
  ⟨by decide, by decide, by decide,
    noclose_fallback "---\ntitle: X".toList "---".toList
      ["title: X".toList] (by decide) (by decide) (by decide)⟩

/-- C7: after processing, every cell carries a non-empty id; the cell
at position `j` receives the fresh token `gen j` exactly when its id
was missing or empty and keeps its old id otherwise, and the number
of cells (with their positional order) is preserved. -/
theorem cell_id_invariant (gen : Nat → Str) (hgen : ∀ n, gen n ≠ [])
    (cells : List Cell) :
    (fixNotebookContent gen cells).1.length = cells.length ∧
    (∀ c ∈ (fixNotebookContent gen cells).1,
      c.id ≠ none ∧ c.id ≠ some []) ∧
    (∀ j c, cells[j]? = some c →
      ((fixNotebookContent gen cells).1.map Cell.id)[j]? =
        some (if c.id = none ∨ c.id = some [] then some (gen j)
          else c.id)) := by
  refine ⟨?_, fixNotebookContent_good_ids gen hgen cells, ?_⟩
  · rw [fixNotebookContent_cells, fmStep_length, ensureIdsFrom_length]
  · intro j c hjc
    rw [fixNotebookContent_cells, fmStep_id_map, List.getElem?_map,
      ensureIdsFrom_getElem? gen cells 0 j c hjc]
    by_cases hc : c.id = none ∨ c.id = some []
    · rw [if_pos hc, if_pos hc]
      simp
    · rw [if_neg hc, if_neg hc]
      rfl

/-- C7 witness: cell count is preserved on a concrete two-cell
document whose first cell lacks an id. -/
theorem cell_id_invariant_witness :
    (fixNotebookContent (fun _ => ['u'])
      [⟨"code".toList, Source.str "x".toList, none⟩,
       ⟨"markdown".toList, Source.str "y".toList, some ['a']⟩]).1.length =
      ([⟨"code".toList, Source.str "x".toList, none⟩,
        ⟨"markdown".toList, Source.str "y".toList, some ['a']⟩] :
        List Cell).length :=
  (cell_id_invariant (fun _ => ['u']) (fun n => by simp)
    [⟨"code".toList, Source.str "x".toList, none⟩,
     ⟨"markdown".toList, Source.str "y".toList, some ['a']⟩]).1

/-- C6 counterexample: a document whose single cell already has an id
and already-normalized front matter is left content-identical by the
pipeline, yet the `changed` flag is set (detection alone sets it) and
the document is written back — refuting "serialized only if
processing actually changed the document's content". -/
theorem conditional_write_counterexample :
    (fixNotebookContent (fun _ => ['u'])
      [⟨"markdown".toList, Source.str "---\ntitle: a\n---".toList,
        some ['x']⟩]).1 =
      [⟨"markdown".toList, Source.str "---\ntitle: a\n---".toList,
        some ['x']⟩] ∧
    (fixNotebookContent (fun _ => ['u'])
      [⟨"markdown".toList, Source.str "---\ntitle: a\n---".toList,
        some ['x']⟩]).2 = true ∧
    fixNotebookEffects (fun _ => ['u']) true (ReadResult.ok
      [⟨"markdown".toList, Source.str "---\ntitle: a\n---".toList,
        some ['x']⟩]) =
      ⟨some [⟨"markdown".toList, Source.str "---\ntitle: a\n---".toList,
        some ['x']⟩], 1⟩ :=
  ⟨by decide, by decide, by decide⟩

/-- C6 amended: the write is attempted exactly when the `changed`
flag is set; the flag is set iff some cell lacks an id or front
matter is detected in the first cell — detection sets it even when
the rewrite leaves the content identical; when the flag is clear the
content is unchanged and nothing is written or logged. -/
theorem conditional_write_amended (gen : Nat → Str) (writeOk : Bool)
    (cells : List Cell) :
    ((fixNotebookContent gen cells).2 =
      (cells.any (fun c => decide (c.id = none ∨ c.id = some [])) ||
       (match cells with
        | [] => false
        | first :: _ => detectFM (srcText first.source)))) ∧
    ((fixNotebookContent gen cells).2 = false →
      (fixNotebookContent gen cells).1 = cells) ∧
    ((fixNotebookContent gen cells).2 = false →
      fixNotebookEffects gen writeOk (ReadResult.ok cells) = ⟨none, 0⟩) := by
  have hmain : (fixNotebookContent gen cells).2 = false →
      (fixNotebookContent gen cells).1 = cells := by
    intro hfl
    rw [fixNotebookContent_flag] at hfl
    have h1 : (ensureIdsFrom gen 0 cells).2 = false :=
      (Bool.or_eq_false_iff.mp hfl).1
    have h2 : (fmStep (ensureIdsFrom gen 0 cells).1).2 = false :=
      (Bool.or_eq_false_iff.mp hfl).2
    have hids : ∀ c ∈ cells, ¬(c.id = none ∨ c.id = some []) := by
      intro c hc
      have hany := ensureIdsFrom_flag gen 0 cells
      rw [h1] at hany
      have hfalse := (List.any_eq_false.mp hany.symm) c hc
      simpa using hfalse
    have hnc := ensureIdsFrom_nochange gen 0 cells hids
    have hnc1 : (ensureIdsFrom gen 0 cells).1 = cells := by rw [hnc]
    rw [hnc1] at h2
    rw [fixNotebookContent_cells, hnc1]
    rcases cells with _ | ⟨first, cs⟩
    · rfl
    · by_cases hdet : detectFM (srcText first.source) = true
      · rw [fmStep_detect _ _ hdet] at h2
        simp at h2
      · rw [fmStep_nodetect _ _ (by simpa using hdet)]
  refine ⟨changed_flag_eq gen cells, hmain, ?_⟩
  intro hfl
  have hEff : fixNotebookEffects gen writeOk (ReadResult.ok cells) =
      (if (fixNotebookContent gen cells).2 = true then
        (if writeOk = true then
          ⟨some (fixNotebookContent gen cells).1, 1⟩
        else ⟨none, 1⟩)
      else ⟨none, 0⟩) := rfl
  rw [hEff, hfl, if_neg (by simp)]

/-- C6 amended witness: the flag characterization instantiated at a
concrete document with a missing id. -/
theorem conditional_write_amended_witness :
    (fixNotebookContent (fun _ => ['u'])
      [⟨"code".toList, Source.str "plain".toList, none⟩]).2 =
      (([⟨"code".toList, Source.str "plain".toList, none⟩] :
        List Cell).any (fun c => decide (c.id = none ∨ c.id = some [])) ||
       (match ([⟨"code".toList, Source.str "plain".toList, none⟩] :
          List Cell) with
        | [] => false
        | first :: _ => detectFM (srcText first.source))) :=
  (conditional_write_amended (fun _ => ['u']) true
    [⟨"code".toList, Source.str "plain".toList, none⟩]).1

/-- C1: a document whose first cell has type tag `code` and source
`---\ntitle: Hello: World\ncomments: YES\n---\nbody` is, after
processing, retagged to `markdown` with its source rewritten to
exactly `---\ntitle: "Hello: World"\ncomments: true\n---\nbody`, and
every cell of the processed document carries a non-empty id. -/
theorem end_to_end_scenario (gen : Nat → Str) (hgen : ∀ n, gen n ≠ [])
    (id0 : Option Str) (rest : List Cell) :
    ((fixNotebookContent gen
      (⟨"code".toList,
        Source.str "---\ntitle: Hello: World\ncomments: YES\n---\nbody".toList,
        id0⟩ :: rest)).1.head?.map Cell.cell_type =
      some "markdown".toList) ∧
    ((fixNotebookContent gen
      (⟨"code".toList,
        Source.str "---\ntitle: Hello: World\ncomments: YES\n---\nbody".toList,
        id0⟩ :: rest)).1.head?.map Cell.source =
      some (Source.str
        "---\ntitle: \"Hello: World\"\ncomments: true\n---\nbody".toList)) ∧
    (∀ c ∈ (fixNotebookContent gen
      (⟨"code".toList,
        Source.str "---\ntitle: Hello: World\ncomments: YES\n---\nbody".toList,
        id0⟩ :: rest)).1, c.id ≠ none ∧ c.id ≠ some []) := by
  obtain ⟨id1, h1⟩ := ensureIdsFrom_cons gen 0
    ⟨"code".toList,
      Source.str "---\ntitle: Hello: World\ncomments: YES\n---\nbody".toList,
      id0⟩ rest
  have hdet : detectFM (srcText (Source.str
      "---\ntitle: Hello: World\ncomments: YES\n---\nbody".toList)) =
      true := by decide
  refine ⟨?_, ?_, fixNotebookContent_good_ids gen hgen _⟩
  · rw [fixNotebookContent_cells, h1, fmStep_detect _ _ hdet]
    rfl
  · rw [fixNotebookContent_cells, h1, fmStep_detect _ _ hdet]
    show some (Source.str (fixFirstSource
      "---\ntitle: Hello: World\ncomments: YES\n---\nbody".toList)) = _
    decide

/-- C1 witness: the retag conclusion at a concrete one-cell
document. -/
theorem end_to_end_scenario_witness :
    (fixNotebookContent (fun _ => ['u'])
      [⟨"code".toList,
        Source.str "---\ntitle: Hello: World\ncomments: YES\n---\nbody".toList,
        none⟩]).1.head?.map Cell.cell_type = some "markdown".toList :=
  (end_to_end_scenario (fun _ => ['u']) (fun n => by simp) none []).1

theorem head_path_getLast {l0 : Str} {rest : List Str} {lst : Str}
    (hlst : (l0 :: rest).getLast? = some lst) :
    (normalize_front_matter_lines ((l0 :: rest).take 6) ++
      (l0 :: rest).drop 6).getLast? = some (normalizeLine lst) ∨
    (normalize_front_matter_lines ((l0 :: rest).take 6) ++
      (l0 :: rest).drop 6).getLast? = some lst := by
  rcases hd6 : (l0 :: rest).drop 6 with _ | ⟨a, as⟩
  · left
    rw [List.append_nil,
      List.take_of_length_le (List.drop_eq_nil_iff.mp hd6),
      normalize_front_matter_lines, List.getLast?_map, hlst]
    rfl
  · right
    have hsuf : (a :: as : List Str) <:+ (l0 :: rest) := by
      rw [← hd6]
      exact List.drop_suffix 6 (l0 :: rest)
    rw [List.getLast?_append_of_ne_nil _ (by simp),
      ← getLast?_of_suffix hsuf (by simp), hlst]

/-- C10: in both fallback reassembly paths — an opening `---` with no
closing `---`, and a first line that does not strip to `---` (first
six lines normalized) — the rewritten first-cell source is exactly
the lines joined with newline characters only; a trailing newline is
restored only in the closed-delimiter path, so a source ending in a
single trailing newline leaves a fallback path with that newline
dropped. -/
theorem fallback_trailing_newline (t l0 : Str) (rest : List Str)
    (hsp : splitlines t = l0 :: rest) :
    (pyStrip l0 = "---".toList → findDashIdx rest = none →
      fixFirstSource t =
        joinNL (normalize_front_matter_lines (l0 :: rest))) ∧
    (pyStrip l0 ≠ "---".toList →
      fixFirstSource t =
        joinNL (normalize_front_matter_lines ((l0 :: rest).take 6) ++
          (l0 :: rest).drop 6)) ∧
    (∀ k, pyStrip l0 = "---".toList → findDashIdx rest = some k →
      t.getLast? = some nlChar →
      (fixFirstSource t).getLast? = some nlChar) ∧
    (t.getLast? = some nlChar → t.dropLast.getLast? ≠ some nlChar →
      (pyStrip l0 ≠ "---".toList ∨ findDashIdx rest = none) →
      (fixFirstSource t).getLast? ≠ some nlChar) := by
  have htne : t ≠ [] := by
    intro h
    rw [h] at hsp
    simp [splitlines] at hsp
  refine ⟨?_, ?_, ?_, ?_⟩
  · intro h0 hnc
    rw [fixFirstSource_cons hsp, fmRewrite, if_pos h0, hnc]
    rfl
  · intro hne0
    rw [fixFirstSource_cons hsp, fmRewrite, if_neg hne0]
  · intro k h0 hfd hend
    rw [fixFirstSource_closed_eq hsp h0 hfd, if_pos hend,
      List.getLast?_concat]
  · intro hend hdl hpath
    by_cases hdl0 : t.dropLast = []
    · have ht : t = [nlChar] := by
        rcases t with _ | ⟨c, cs⟩
        · exact absurd rfl htne
        · rcases cs with _ | ⟨d, ds⟩
          · simp only [List.getLast?_singleton, Option.some.injEq] at hend
            rw [hend]
          · exfalso
            simp at hdl0
      rw [ht]
      decide
    · have hlast_ne : ∀ lst, (splitlines t).getLast? = some lst →
          lst ≠ [] := by
        intro lst hlst
        unfold splitlines at hlst
        rw [if_neg htne, if_pos hend] at hlst
        exact splitOnNL_getLast?_ne_nil hdl0 hdl lst hlst
      obtain ⟨lst, hlst⟩ : ∃ lst, (splitlines t).getLast? = some lst := by
        cases hgl : (splitlines t).getLast? with
        | none =>
          rw [List.getLast?_eq_none_iff, hsp] at hgl
          simp at hgl
        | some lst => exact ⟨lst, rfl⟩
      have hlst_ne : lst ≠ [] := hlast_ne lst hlst
      have hlst_free : nlChar ∉ lst :=
        nl_not_mem_of_mem_splitlines (List.mem_of_mem_getLast? hlst)
      rw [hsp] at hlst
      obtain ⟨L, hL, hlastL⟩ : ∃ L, fixFirstSource t = joinNL L ∧
          (L.getLast? = some (normalizeLine lst) ∨
           L.getLast? = some lst) := by
        rcases hpath with hne0 | hnc
        · exact ⟨normalize_front_matter_lines ((l0 :: rest).take 6) ++
            (l0 :: rest).drop 6,
            by rw [fixFirstSource_cons hsp, fmRewrite, if_neg hne0],
            head_path_getLast hlst⟩
        · by_cases h0 : pyStrip l0 = "---".toList
          · refine ⟨normalize_front_matter_lines (l0 :: rest), ?_,
              Or.inl ?_⟩
            · rw [fixFirstSource_cons hsp, fmRewrite, if_pos h0, hnc]
              rfl
            · rw [normalize_front_matter_lines, List.getLast?_map, hlst]
              rfl
          · exact ⟨normalize_front_matter_lines ((l0 :: rest).take 6) ++
              (l0 :: rest).drop 6,
              by rw [fixFirstSource_cons hsp, fmRewrite, if_neg h0],
              head_path_getLast hlst⟩
      rw [hL]
      rcases hlastL with hlastL | hlastL
      · exact joinNL_getLast?_ne_nl hlastL (normalizeLine_ne_nil hlst_ne)
          (nl_not_mem_normalizeLine hlst_free)
      · exact joinNL_getLast?_ne_nl hlastL hlst_ne hlst_free

/-- C10 witness: `---\ntitle: X\n` (no closing delimiter, single
trailing newline) is rejoined without the trailing newline. -/
theorem fallback_trailing_newline_witness :
    (fixFirstSource "---\ntitle: X\n".toList =
      joinNL (normalize_front_matter_lines
        ["---".toList, "title: X".toList])) ∧
    (fixFirstSource "---\ntitle: X\n".toList).getLast? ≠
      some nlChar :=
  ⟨(fallback_trailing_newline "---\ntitle: X\n".toList "---".toList
      ["title: X".toList] (by decide)).1 (by decide) (by decide),
   (fallback_trailing_newline "---\ntitle: X\n".toList "---".toList
      ["title: X".toList] (by decide)).2.2.2 (by decide) (by decide)
      (Or.inr (by decide))⟩

/-- C5 counterexample: a one-cell document with id and source
`---\na\n\n` (opening `---`, no closing `---`, two trailing
newlines) is not idempotent: the first run joins the lines and keeps
one trailing newline (`---\na\n`), the second run drops it
(`---\na`), so running the fixer twice changes the content again. -/
theorem idempotence_counterexample :
    (fixNotebookContent (fun _ => ['u'])
      (fixNotebookContent (fun _ => ['u'])
        [⟨"markdown".toList, Source.str "---\na\n\n".toList,
          some ['x']⟩]).1).1 ≠
      (fixNotebookContent (fun _ => ['u'])
        [⟨"markdown".toList, Source.str "---\na\n\n".toList,
          some ['x']⟩]).1 := by decide

/-- C5 amended: running the fixer twice yields the same content as
running it once for every document whose first cell either triggers
no front-matter detection or takes the closed-delimiter path (a
closing `---` line exists); ids assigned on the first run are kept on
the second. (The fallback reassembly paths can keep eroding trailing
newlines, see the counterexample.) -/
theorem idempotence_amended (gen1 gen2 : Nat → Str)
    (hgen : ∀ n, gen1 n ≠ []) (cells : List Cell)
    (hstable : cells = [] ∨ ∃ first cs, cells = first :: cs ∧
      (detectFM (srcText first.source) = false ∨
       ∃ l0 rest k, splitlines (srcText first.source) = l0 :: rest ∧
         pyStrip l0 = "---".toList ∧ findDashIdx rest = some k)) :
    (fixNotebookContent gen2 (fixNotebookContent gen1 cells).1).1 =
      (fixNotebookContent gen1 cells).1 := by
  have hgood := fixNotebookContent_good_ids gen1 hgen cells
  have hnochange := ensureIdsFrom_nochange gen2 0
    (fixNotebookContent gen1 cells).1
    (fun c hc hcon => by
      rcases hcon with h | h
      · exact (hgood c hc).1 h
      · exact (hgood c hc).2 h)
  have hnc1 : (ensureIdsFrom gen2 0 (fixNotebookContent gen1 cells).1).1 =
      (fixNotebookContent gen1 cells).1 := by rw [hnochange]
  rw [fixNotebookContent_cells gen2, hnc1]
  rcases hstable with hnil | ⟨first, cs, hc, hdisj⟩
  · rw [hnil]
    rfl
  · subst hc
    obtain ⟨id1, h1⟩ := ensureIdsFrom_cons gen1 0 first cs
    by_cases hdet : detectFM (srcText first.source) = true
    · rcases hdisj with hnodet | ⟨l0, rest, k, hsp, h0, hfd⟩
      · rw [hnodet] at hdet
        exact absurd hdet (by simp)
      · have hstable2 := fixFirstSource_closed_stable hsp h0 hfd
        have hout : (fixNotebookContent gen1 (first :: cs)).1 =
            ⟨"markdown".toList,
              Source.str (fixFirstSource (srcText first.source)), id1⟩ ::
            (ensureIdsFrom gen1 1 cs).1 := by
          rw [fixNotebookContent_cells, h1,
            fmStep_detect ⟨first.cell_type, first.source, id1⟩ _ hdet]
        rw [hout, fmStep_detect ⟨"markdown".toList,
          Source.str (fixFirstSource (srcText first.source)), id1⟩ _
          hstable2.2]
        rw [show fixFirstSource (srcText (Source.str
          (fixFirstSource (srcText first.source)))) =
          fixFirstSource (srcText first.source) from hstable2.1]
    · have hdet' : detectFM (srcText first.source) = false := by
        simpa using hdet
      have hout : (fixNotebookContent gen1 (first :: cs)).1 =
          ⟨first.cell_type, first.source, id1⟩ ::
          (ensureIdsFrom gen1 1 cs).1 := by
        rw [fixNotebookContent_cells, h1,
          fmStep_nodetect ⟨first.cell_type, first.source, id1⟩ _ hdet']
      rw [hout,
        fmStep_nodetect ⟨first.cell_type, first.source, id1⟩ _ hdet']

/-- C5 amended witness: twice equals once on a concrete closed-path
document whose cell lacks an id. -/
theorem idempotence_amended_witness :
    (fixNotebookContent (fun _ => ['u'])
      (fixNotebookContent (fun _ => ['u'])
        [⟨"code".toList, Source.str "---\na: b\n---".toList, none⟩]).1).1 =
      (fixNotebookContent (fun _ => ['u'])
        [⟨"code".toList, Source.str "---\na: b\n---".toList, none⟩]).1 :=
  idempotence_amended (fun _ => ['u']) (fun _ => ['u'])
    (fun n => by simp)
    [⟨"code".toList, Source.str "---\na: b\n---".toList, none⟩]
    (Or.inr ⟨⟨"code".toList, Source.str "---\na: b\n---".toList, none⟩,
      [], rfl,
      Or.inr ⟨"---".toList, ["a: b".toList, "---".toList], 1,
        by decide, by decide, by decide⟩⟩)

end NormalizeNotebooks
